import Mathlib

/-!
Verification of the promisio promise library (src/src/promisio/__init__.py)
against its natural-language specification.

The library wraps an asyncio Future in a Promise class and builds the
then/catch/finally chaining machinery and the four combinators (all,
all_settled, any, race) on top of it.  This file gives a shallow embedding
of that code:

* `FState` is the state of one asyncio Future (pending, fulfilled,
  rejected, or cancelled).  `Future.set_result`, `Future.set_exception`,
  `Future.cancel`, `Future.cancelled` and `Future.result` are the asyncio
  operations the library calls; each returns the new state together with
  the error signal the real operation raises (asyncio raises
  InvalidStateError when a result or exception is set twice).
* `Promise._resolve` and `Promise._reject` are the internal settlement
  primitives of the library (lines 246-250 of the source); `Promise.cancel`
  and `Promise.cancelled` are the plain-promise cancellation operations
  (lines 75-84), which forward to the future.
* `handleDoneO`, `thenO`, `catchO` and `finallyO` model the pure outcome
  semantics of `_handle_done` / `_handle_callback` (lines 252-276) and the
  `then` / `catch` / `finally_` methods: given the eventual outcome of the
  source promise and the attached handlers, they compute the eventual
  outcome of the downstream promise.
* the combinators are modelled as explicit state machines driven by a
  schedule of completion events, further below.

Throughout, one type `α` stands for the dynamic Python values carried by
fulfillments and one type `ε` for the exception objects carried by
rejections.
-/

/-- State of an asyncio Future: pending, a stored result, a stored
exception, or cancelled. -/
inductive FState (α ε : Type) where
  | pending
  | fulfilled (v : α)
  | rejected (e : ε)
  | cancelled
deriving DecidableEq

/-- A future is settled when it holds a result or an exception (the
terminal states a promise reaches by resolution or rejection). -/
def FState.settled : FState α ε → Bool
  | .fulfilled _ => true
  | .rejected _ => true
  | _ => false

namespace Future

/-- asyncio Future.set_result: stores the result when the future is
pending; otherwise raises InvalidStateError (modelled as `Except.error ()`)
and leaves the state untouched. -/
def set_result (s : FState α ε) (v : α) : FState α ε × Except Unit Unit :=
  match s with
  | .pending => (.fulfilled v, .ok ())
  | s => (s, .error ())

/-- asyncio Future.set_exception: stores the exception when the future is
pending; otherwise raises InvalidStateError and leaves the state
untouched. -/
def set_exception (s : FState α ε) (e : ε) : FState α ε × Except Unit Unit :=
  match s with
  | .pending => (.rejected e, .ok ())
  | s => (s, .error ())

/-- asyncio Future.cancel: a pending future becomes cancelled and the call
returns True; a done future is left unchanged and the call returns
False. -/
def cancel (s : FState α ε) : FState α ε × Bool :=
  match s with
  | .pending => (.cancelled, true)
  | s => (s, false)

/-- asyncio Future.cancelled: true exactly in the cancelled state. -/
def cancelled : FState α ε → Bool
  | .cancelled => true
  | _ => false

/-- What asyncio Future.result() does in each state. -/
inductive FResult (α ε : Type) where
  | ok (v : α)
  | exc (e : ε)
  | cancelledError
  | invalidStateError
deriving DecidableEq

/-- asyncio Future.result: returns the stored result, re-raises the stored
exception, raises CancelledError on a cancelled future, and raises
InvalidStateError on a pending one. -/
def result : FState α ε → FResult α ε
  | .pending => .invalidStateError
  | .fulfilled v => .ok v
  | .rejected e => .exc e
  | .cancelled => .cancelledError

end Future

namespace Promise

/-- Promise._resolve (source line 246): self.future.set_result(result). -/
def _resolve (s : FState α ε) (v : α) : FState α ε × Except Unit Unit :=
  Future.set_result s v

/-- Promise._reject (source line 249): self.future.set_exception(error). -/
def _reject (s : FState α ε) (e : ε) : FState α ε × Except Unit Unit :=
  Future.set_exception s e

/-- Promise.cancel on a plain promise (source line 75): returns
self.future.cancel(). -/
def cancel (s : FState α ε) : FState α ε × Bool :=
  Future.cancel s

/-- Promise.cancelled on a plain promise (source line 82): returns
self.future.cancelled(). -/
def cancelled (s : FState α ε) : Bool :=
  Future.cancelled s

end Promise

/-!
Pure outcome semantics of handler invocation.

`Outcome` is the eventual settlement of a promise that does settle.
`CbResult` is what one invocation of a Python callback can do: return a
plain value, return a Promise (which the downstream promise then adopts),
or raise an exception.  A handler slot of `then` is either absent (None or
any non-callable object, for which `callable(callback)` is false in
`_handle_callback`) or a callable.
-/

/-- Eventual settlement of a promise: a fulfillment value or a rejection
reason. -/
inductive Outcome (α ε : Type) where
  | value (v : α)
  | error (e : ε)
deriving DecidableEq

/-- Result of invoking a Python callback once: a plain return value, a
returned Promise together with the outcome that promise eventually
settles with, or a raised exception. -/
inductive CbResult (α ε : Type) where
  | ret (v : α)
  | prom (o : Outcome α ε)
  | raises (e : ε)
deriving DecidableEq

/-- The fulfillment-handler slot of then: absent or not callable, or a
callable from the fulfillment value. -/
inductive OnResolved (α ε : Type) where
  | absent
  | fn (f : α → CbResult α ε)

/-- The rejection-handler slot of then: absent or not callable, or a
callable from the rejection reason. -/
inductive OnRejected (α ε : Type) where
  | absent
  | fn (f : ε → CbResult α ε)

/-- The callable branch of Promise._handle_callback (source lines
254-263): the callback result settles the downstream promise.  A plain
value resolves it, a returned Promise is adopted (the downstream promise
settles with that promise eventual outcome, lines 257-259), and a raised
exception is caught by the `except BaseException` clause and rejects the
downstream promise (lines 262-263). -/
def runCbResult : CbResult α ε → Outcome α ε
  | .ret v => .value v
  | .prom o => o
  | .raises e => .error e

/-- Promise._handle_done together with Promise._handle_callback (source
lines 252-276), as a pure function from the outcome of the source promise
to the outcome of the downstream promise created by then.  When the source
future holds a result, the fulfillment handler runs (resolve=True:
an absent handler passes the value through, line 264-265); when it holds
an exception, the rejection handler runs (resolve=False: an absent handler
passes the error through as a rejection, line 266-267). -/
def handleDoneO (onRes : OnResolved α ε) (onRej : OnRejected α ε) :
    Outcome α ε → Outcome α ε
  | .value v =>
    match onRes with
    | .absent => .value v
    | .fn f => runCbResult (f v)
  | .error e =>
    match onRej with
    | .absent => .error e
    | .fn f => runCbResult (f e)

/-- Promise.then (source lines 37-50): the downstream promise settles with
the outcome computed by `_handle_done` from the source outcome. -/
def thenO (o : Outcome α ε) (onRes : OnResolved α ε) (onRej : OnRejected α ε) :
    Outcome α ε :=
  handleDoneO onRes onRej o

/-- Promise.catch (source lines 52-60): self.then(None, on_rejected). -/
def catchO (o : Outcome α ε) (onRej : OnRejected α ε) : Outcome α ε :=
  thenO o .absent onRej

/-- Promise.finally_ (source lines 62-73): builds
`_finally(result) = on_settled()` and returns self.then(_finally,
_finally).  The handler takes no argument, so its behaviour is one fixed
`CbResult` value: what calling on_settled() does. -/
def finallyO (onSettled : CbResult α ε) (o : Outcome α ε) : Outcome α ε :=
  thenO o (.fn fun _ => onSettled) (.fn fun _ => onSettled)

/-!
Claims C1, C3, C8, C9, C2.
-/

/-- C1: once a promise is settled (fulfilled or rejected), any further
call to the internal settlement primitives `_resolve` or `_reject` fails
with the double-settlement error signal (asyncio InvalidStateError,
modelled as `Except.error ()`), and the stored value or error is unchanged
by the failed attempt. -/
theorem settled_promise_rejects_resettlement (s : FState α ε) (v : α) (e : ε)
    (h : s.settled = true) :
    Promise._resolve s v = (s, Except.error ()) ∧
    Promise._reject s e = (s, Except.error ()) := by
  cases s with
  | pending => simp [FState.settled] at h
  | fulfilled w => exact ⟨rfl, rfl⟩
  | rejected w => exact ⟨rfl, rfl⟩
  | cancelled => simp [FState.settled] at h

/-- Witness for C1 at a concrete settled state. -/
theorem settled_promise_rejects_resettlement_witness :
    (FState.fulfilled 1 : FState Nat Nat).settled = true ∧
    Promise._resolve (FState.fulfilled 1 : FState Nat Nat) 2 =
      (FState.fulfilled 1, Except.error ()) ∧
    Promise._reject (FState.fulfilled 1 : FState Nat Nat) 3 =
      (FState.fulfilled 1, Except.error ()) :=
  ⟨by decide, settled_promise_rejects_resettlement (FState.fulfilled 1) 2 3 (by decide)⟩

/-- C3 counterexample: cancelling a pending plain promise is not a no-op.
`Promise.cancel` forwards to Future.cancel, which moves a pending future
to the cancelled state and returns True, after which `cancelled()` returns
true. -/
theorem cancel_pending_not_noop :
    (Promise.cancel (FState.pending : FState Nat Nat)).1 ≠ FState.pending ∧
    Promise.cancelled (Promise.cancel (FState.pending : FState Nat Nat)).1 = true := by
  exact ⟨by decide, by decide⟩

/-- C3 amended: for a plain promise, `cancel()` on a pending promise
cancels the underlying future (the state becomes cancelled, the call
returns True, `cancelled()` becomes true, and awaiting the promise raises
CancelledError); on an already settled promise (fulfilled or rejected),
`cancel()` is a no-op that returns False and never raises, and
`cancelled()` stays false. -/
theorem cancel_semantics (v : α) (e : ε) :
    Promise.cancel (FState.pending : FState α ε) = (FState.cancelled, true) ∧
    Promise.cancelled (FState.cancelled : FState α ε) = true ∧
    Future.result (FState.cancelled : FState α ε) = Future.FResult.cancelledError ∧
    Promise.cancel (FState.fulfilled v : FState α ε) = (FState.fulfilled v, false) ∧
    Promise.cancel (FState.rejected e : FState α ε) = (FState.rejected e, false) ∧
    Promise.cancelled (FState.fulfilled v : FState α ε) = false ∧
    Promise.cancelled (FState.rejected e : FState α ε) = false :=
  ⟨rfl, rfl, rfl, rfl, rfl, rfl, rfl⟩

/-- C8: then with the handler for the actual outcome absent or not
callable settles identically to the source promise: a fulfillment value
passes through when on_resolved is absent, and a rejection passes through
as a rejection (never silently swallowed) when on_rejected is absent. -/
theorem then_passthrough (v : α) (e : ε)
    (onRes : OnResolved α ε) (onRej : OnRejected α ε) :
    thenO (Outcome.value v) OnResolved.absent onRej = Outcome.value v ∧
    thenO (Outcome.error e) onRes OnRejected.absent = Outcome.error e :=
  ⟨rfl, rfl⟩

/-- C9: when an attached handler raises, the exception is caught at the
point of invocation (the except BaseException clause of _handle_callback)
and the immediately downstream promise rejects with exactly that
exception, on both the fulfillment and the rejection branch. -/
theorem handler_exception_rejects_downstream (v : α) (e eF eR : ε)
    (f : α → CbResult α ε) (g : ε → CbResult α ε)
    (onRes : OnResolved α ε) (onRej : OnRejected α ε)
    (hf : f v = CbResult.raises eF) (hg : g e = CbResult.raises eR) :
    thenO (Outcome.value v) (OnResolved.fn f) onRej = Outcome.error eF ∧
    thenO (Outcome.error e) onRes (OnRejected.fn g) = Outcome.error eR := by
  constructor
  · show runCbResult (f v) = Outcome.error eF
    rw [hf]; rfl
  · show runCbResult (g e) = Outcome.error eR
    rw [hg]; rfl

/-- Witness for C9 at concrete raising handlers. -/
theorem handler_exception_rejects_downstream_witness :
    thenO (Outcome.value (0 : Nat)) (OnResolved.fn fun _ => CbResult.raises (5 : Nat))
        OnRejected.absent = Outcome.error 5 ∧
    thenO (Outcome.error 1 : Outcome Nat Nat) OnResolved.absent
        (OnRejected.fn fun _ => CbResult.raises (7 : Nat)) = Outcome.error 7 := by
  have h := handler_exception_rejects_downstream (α := Nat) (ε := Nat) 0 1 5 7
    (fun _ => CbResult.raises 5) (fun _ => CbResult.raises 7)
    OnResolved.absent OnRejected.absent rfl rfl
  exact h

/-- C2 counterexample: finally_ does not preserve the settled outcome of
the source promise.  With a source promise rejected with reason 7 and a
handler that returns normally (returning 0), the downstream promise
fulfills with 0 instead of rejecting with 7: the _finally wrapper returns
on_settled() and _handle_callback resolves the downstream promise with
that return value. -/
theorem finally_not_outcome_preserving :
    finallyO (CbResult.ret 0) (Outcome.error 7 : Outcome Nat Nat) = Outcome.value 0 ∧
    (Outcome.value 0 : Outcome Nat Nat) ≠ Outcome.error 7 :=
  ⟨rfl, by decide⟩

/-- C2 amended: the promise returned by p.finally_(h) settles with the
interpretation of what h() does, independently of the outcome of p: if h
returns a plain value r, the downstream promise fulfills with r (the
original settled value or error of p is discarded); if h raises e, the
downstream promise rejects with e; if h returns a promise, the downstream
promise adopts that promise eventual outcome. -/
theorem finally_replaces_outcome (onSettled : CbResult α ε) (o : Outcome α ε) :
    finallyO onSettled o = runCbResult onSettled := by
  cases o <;> rfl

/-!
Combinator machinery.

The four combinators take an ordered list of inputs.  An input is a raw
non-promise value or a promise (identified here with the outcome it
eventually settles with).  `Promise.resolve` (the static resolve method,
source lines 86-111) normalizes a value into a promise.

A run of a combinator is driven by a schedule: the list of completion
events, in real-time order, of the normalized input promises.  Each event
carries the input index it belongs to and the outcome delivered.  A
schedule is valid for an input list when every event names an existing
index and carries exactly the outcome of the normalized promise at that
index, and no input settles twice (the indices are distinct).
-/

/-- An element of the input list of a combinator: a raw non-promise value
or a promise together with its eventual outcome. -/
inductive Input (α ε : Type) where
  | raw (v : α)
  | prom (o : Outcome α ε)
deriving DecidableEq

/-- Promise.resolve (source lines 86-111), as the eventual outcome of the
promise it returns: a Promise argument is adopted, so the outcome is
unchanged (lines 100-103); any other value yields a promise immediately
fulfilled with it (lines 108-110). -/
def Promise.resolve : Input α ε → Outcome α ε
  | .raw v => .value v
  | .prom o => o

/-- Replace an input by the promise Promise.resolve turns it into. -/
def normInput (i : Input α ε) : Input α ε :=
  .prom (Promise.resolve i)

/-- A completion event: input index together with the delivered outcome. -/
abbrev Event (α ε : Type) := Nat × Outcome α ε

/-- The event names an existing input index and carries the outcome of
the normalized promise at that index. -/
def validEvent (inputs : List (Input α ε)) (ev : Event α ε) : Prop :=
  ∃ inp, inputs[ev.1]? = some inp ∧ ev.2 = Promise.resolve inp

instance validEvent.decidable [DecidableEq α] [DecidableEq ε]
    (inputs : List (Input α ε)) (ev : Event α ε) : Decidable (validEvent inputs ev) :=
  match h : inputs[ev.1]? with
  | some inp =>
    if he : ev.2 = Promise.resolve inp then
      isTrue ⟨inp, h, he⟩
    else
      isFalse fun hex => by
        obtain ⟨inp2, h2, he2⟩ := hex
        rw [h] at h2
        injection h2 with h3
        subst h3
        exact he he2
  | none => isFalse fun hex => by
      obtain ⟨inp2, h2, _⟩ := hex
      rw [h] at h2
      exact Option.noConfusion h2

/-- A valid schedule: distinct indices (each input settles at most once),
every event valid for the input list.  Real-time completion order is the
list order. -/
def ValidSchedule (inputs : List (Input α ε)) (evs : List (Event α ε)) : Prop :=
  (evs.map Prod.fst).Nodup ∧ ∀ ev ∈ evs, validEvent inputs ev

instance ValidSchedule.decidable [DecidableEq α] [DecidableEq ε]
    (inputs : List (Input α ε)) (evs : List (Event α ε)) :
    Decidable (ValidSchedule inputs evs) :=
  decidable_of_iff ((evs.map Prod.fst).Nodup ∧ ∀ ev ∈ evs, validEvent inputs ev) Iff.rfl

/-- Settlement of the intermediate promise created by the .then call a
combinator attaches to one normalized input.  The stateful callbacks used
by the combinators return None when they complete normally, so
_handle_callback resolves the intermediate promise with None; when the
callback raises (which only happens as an InvalidStateError out of a
double settlement of the combinator promise), the except BaseException
clause catches it and rejects the intermediate promise with it.  In both
cases nothing propagates to the scheduler. -/
inductive InnerOutcome where
  | resolvedNone
  | rejectedInvalidState
deriving DecidableEq

/-- Wrap the error signal of a settlement primitive the way
_handle_callback does around a stateful callback. -/
def innerOf : Except Unit Unit → InnerOutcome
  | .ok _ => .resolvedNone
  | .error _ => .rejectedInvalidState

/-- Run a combinator state machine over a schedule, collecting the
settlement of each intermediate then-promise. -/
def runEvents (step : σ → Event α ε → σ × InnerOutcome) :
    σ → List (Event α ε) → σ × List InnerOutcome
  | s, [] => (s, [])
  | s, ev :: rest =>
    let r := step s ev
    let rr := runEvents step r.1 rest
    (rr.1, r.2 :: rr.2)

/-- Growth step of the sparse results list:
`results += [None] * (index + 1 - len(results))`. -/
def padTo (l : List (Option α)) (n : Nat) : List (Option α) :=
  l ++ List.replicate (n - l.length) none

/-- `results[index] = result` after growing the list when it is too
short (source lines 142-144 and 199-201). -/
def setIdx (l : List (Option α)) (i : Nat) (v : α) : List (Option α) :=
  (padTo l (i + 1)).set i (some v)

/-- State of one Promise.all call (source lines 124-157): the shared
results list, the count of fulfilled inputs, and the future of the
combinator promise, which fulfills with the results list itself. -/
structure AllSt (α ε : Type) where
  results : List (Option α)
  resolved : Nat
  newp : FState (List (Option α)) ε
deriving DecidableEq

/-- Delivery of one completion event to the handlers Promise.all attached
with `Promise.resolve(promise).then(partial(_resolve, index),
new_promise._reject)` (line 151).  A fulfillment runs the _resolve closure
(lines 139-147): record the value, bump the counter, and when every input
has fulfilled, resolve the combinator promise with the results list.  A
rejection runs new_promise._reject directly.  Either settlement primitive
raises InvalidStateError when the combinator promise is already settled;
_handle_callback catches it and rejects the intermediate then-promise. -/
def all_step (total : Nat) (st : AllSt α ε) (ev : Event α ε) :
    AllSt α ε × InnerOutcome :=
  match ev.2 with
  | .value v =>
    let results := setIdx st.results ev.1 v
    let resolved := st.resolved + 1
    if resolved = total then
      let r := Promise._resolve st.newp results
      (⟨results, resolved, r.1⟩, innerOf r.2)
    else
      (⟨results, resolved, st.newp⟩, .resolvedNone)
  | .error e =>
    let r := Promise._reject st.newp e
    (⟨st.results, st.resolved, r.1⟩, innerOf r.2)

/-- The synchronous part of Promise.all: results starts empty, resolved
at zero, and the `if total == resolved` check at line 155 resolves the
combinator promise immediately exactly when the input list is empty (the
then callbacks of non-empty inputs are always delivered later by the
event loop). -/
def all_init (inputs : List (Input α ε)) : AllSt α ε :=
  if inputs.length = 0 then ⟨[], 0, (Promise._resolve FState.pending []).1⟩
  else ⟨[], 0, FState.pending⟩

/-- A full run of Promise.all over a schedule of completion events. -/
def all_run (inputs : List (Input α ε)) (evs : List (Event α ε)) :
    AllSt α ε × List InnerOutcome :=
  runEvents (all_step inputs.length) (all_init inputs) evs

/-- AggregateError (source lines 9-18): holds the list of errors Promise.any
collected, in the sparse index-aligned form the code builds. -/
structure AggregateError (ε : Type) where
  errors : List (Option ε)
deriving DecidableEq

/-- State of one Promise.any call (source lines 180-214). -/
structure AnySt (α ε : Type) where
  errors : List (Option ε)
  rejected : Nat
  newp : FState α (AggregateError ε)
deriving DecidableEq

/-- Delivery of one completion event to the handlers Promise.any attached
with `Promise.resolve(promise).then(new_promise._resolve,
partial(_reject, index))` (line 208).  A fulfillment runs
new_promise._resolve directly; a rejection runs the _reject closure
(lines 196-204), which records the error and rejects the combinator
promise with an AggregateError once every input has rejected. -/
def any_step (total : Nat) (st : AnySt α ε) (ev : Event α ε) :
    AnySt α ε × InnerOutcome :=
  match ev.2 with
  | .value v =>
    let r := Promise._resolve st.newp v
    (⟨st.errors, st.rejected, r.1⟩, innerOf r.2)
  | .error e =>
    let errors := setIdx st.errors ev.1 e
    let rejected := st.rejected + 1
    if rejected = total then
      let r := Promise._reject st.newp ⟨errors⟩
      (⟨errors, rejected, r.1⟩, innerOf r.2)
    else
      (⟨errors, rejected, st.newp⟩, .resolvedNone)

/-- The synchronous part of Promise.any: the `if total == rejected` check
at line 212 rejects the combinator promise with AggregateError([])
immediately exactly when the input list is empty. -/
def any_init (inputs : List (Input α ε)) : AnySt α ε :=
  if inputs.length = 0 then
    ⟨[], 0, (Promise._reject FState.pending (⟨[]⟩ : AggregateError ε)).1⟩
  else ⟨[], 0, FState.pending⟩

/-- A full run of Promise.any over a schedule of completion events. -/
def any_run (inputs : List (Input α ε)) (evs : List (Event α ε)) :
    AnySt α ε × List InnerOutcome :=
  runEvents (any_step inputs.length) (any_init inputs) evs

/-- State of one Promise.race call (source lines 216-244): the latch flag
shared by the two closures, and the future of the combinator promise. -/
structure RaceSt (α ε : Type) where
  settled : Bool
  newp : FState α ε
deriving DecidableEq

/-- Delivery of one completion event to the _resolve and _reject closures
of Promise.race (lines 228-240): when the latch is set the closure
returns immediately (the intermediate then-promise resolves with the None
return value and nothing is raised); otherwise it sets the latch and
settles the combinator promise with the delivered outcome. -/
def race_step (st : RaceSt α ε) (ev : Event α ε) : RaceSt α ε × InnerOutcome :=
  if st.settled then (st, .resolvedNone)
  else
    match ev.2 with
    | .value v =>
      let r := Promise._resolve st.newp v
      (⟨true, r.1⟩, innerOf r.2)
    | .error e =>
      let r := Promise._reject st.newp e
      (⟨true, r.1⟩, innerOf r.2)

/-- The synchronous part of Promise.race: no settlement at all, for any
input count (there is no empty-input check in the source). -/
def race_init (_inputs : List (Input α ε)) : RaceSt α ε :=
  ⟨false, FState.pending⟩

/-- A full run of Promise.race over a schedule of completion events. -/
def race_run (inputs : List (Input α ε)) (evs : List (Event α ε)) :
    RaceSt α ε × List InnerOutcome :=
  runEvents race_step (race_init inputs) evs

/-- The outcome record dicts Promise.all_settled builds (source lines
169-173): status fulfilled with a value, or status rejected with a
reason. -/
inductive SRec (α ε : Type) where
  | fulfilledRec (v : α)
  | rejectedRec (e : ε)
deriving DecidableEq

/-- p.then(f) with only a fulfillment handler: the rejection slot is
absent, so rejections pass through unchanged while f maps the value
(the typed instance of handleDoneO used by all_settled). -/
def thenF (f : α → CbResult β ε) : Outcome α ε → Outcome β ε
  | .value v => runCbResult (f v)
  | .error e => .error e

/-- p.catch(g) = p.then(None, g): fulfillments pass through, g handles
the rejection reason. -/
def catchF (g : ε → CbResult α ε) : Outcome α ε → Outcome α ε
  | .value v => .value v
  | .error e => runCbResult (g e)

/-- Attribute access promise.then applied directly to an input element,
as Promise.all_settled does at line 175: only a Promise has a then
method, so a raw non-promise value raises AttributeError. -/
def input_then (f : α → CbResult β ε) : Input α ε → Except Unit (Outcome β ε)
  | .raw _ => .error ()
  | .prom o => .ok (thenF f o)

/-- The element pipeline of Promise.all_settled (lines 175-178):
promise.then(fulfilled-record-lambda).catch(rejected-record-lambda),
applied directly to the input element, without Promise.resolve. -/
def all_settled_element (i : Input α ε) : Except Unit (Outcome (SRec α ε) ε) :=
  (input_then (fun v => CbResult.ret (SRec.fulfilledRec v)) i).map
    (catchF fun e => CbResult.ret (SRec.rejectedRec e))

/-- The list comprehension in Promise.all_settled, evaluated left to
right; the first AttributeError aborts the whole call. -/
def all_settled_elements : List (Input α ε) → Except Unit (List (Outcome (SRec α ε) ε))
  | [] => .ok []
  | i :: rest =>
    match all_settled_element i with
    | .error u => .error u
    | .ok o =>
      match all_settled_elements rest with
      | .error u => .error u
      | .ok os => .ok (o :: os)

/-- View an outcome as the future state the combinator promise ends in
when settled with it. -/
def outcomeToF : Outcome α ε → FState α ε
  | .value v => .fulfilled v
  | .error e => .rejected e

/-!
Claims C6, C10, C5.
-/

/-- Once the race latch is set, every further event is a no-op: the state
is unchanged and every intermediate then-promise resolves normally. -/
theorem race_run_settled (st : RaceSt α ε) (h : st.settled = true)
    (evs : List (Event α ε)) :
    runEvents race_step st evs = (st, List.replicate evs.length InnerOutcome.resolvedNone) := by
  induction evs with
  | nil => rfl
  | cons ev rest ih =>
    simp [runEvents, race_step, h, ih, List.replicate]

/-- C6: the race combinator promise settles with the outcome of the first
input to settle in completion order (fulfillment or rejection), the latch
is set, and every subsequent settlement of another input is a no-op: the
state never changes again and every attempt returns normally (each
intermediate then-promise resolves with None, nothing raises). -/
theorem race_first_settlement_wins (inputs : List (Input α ε))
    (j : Nat) (o : Outcome α ε) (rest : List (Event α ε))
    (_hv : ValidSchedule inputs ((j, o) :: rest)) :
    race_run inputs ((j, o) :: rest) =
      (⟨true, outcomeToF o⟩, List.replicate (rest.length + 1) InnerOutcome.resolvedNone) := by
  clear _hv
  cases o with
  | value v =>
    simp [race_run, runEvents, race_step, race_init, Promise._resolve,
      Future.set_result, innerOf, outcomeToF, List.replicate,
      race_run_settled (⟨true, FState.fulfilled v⟩ : RaceSt α ε) rfl rest]
  | error e =>
    simp [race_run, runEvents, race_step, race_init, Promise._reject,
      Future.set_exception, innerOf, outcomeToF, List.replicate,
      race_run_settled (⟨true, FState.rejected e⟩ : RaceSt α ε) rfl rest]

/-- Witness for C6: two inputs, the first settling event is a rejection,
the second input fulfills later and is discarded. -/
theorem race_first_settlement_wins_witness :
    ValidSchedule [Input.prom (Outcome.error 3), Input.raw 5]
      [((0 : Nat), (Outcome.error 3 : Outcome Nat Nat)), (1, Outcome.value 5)] ∧
    race_run [Input.prom (Outcome.error 3), Input.raw 5]
      [((0 : Nat), (Outcome.error 3 : Outcome Nat Nat)), (1, Outcome.value 5)] =
      (⟨true, FState.rejected 3⟩,
        [InnerOutcome.resolvedNone, InnerOutcome.resolvedNone]) := by
  refine ⟨by decide, ?_⟩
  have h := race_first_settlement_wins [Input.prom (Outcome.error 3), Input.raw 5]
    0 (Outcome.error 3 : Outcome Nat Nat) [(1, Outcome.value 5)] (by decide)
  exact h

/-- C10: race on the empty input list never settles.  The only valid
schedule for no inputs is the empty one, so no resolve or reject is ever
invoked on the combinator promise, which stays pending with the latch
unset; by contrast all([]) fulfills immediately with the empty list and
any([]) rejects immediately with AggregateError([]). -/
theorem race_empty_never_settles (evs : List (Event α ε))
    (hv : ValidSchedule ([] : List (Input α ε)) evs) :
    evs = [] ∧
    race_run ([] : List (Input α ε)) evs = (⟨false, FState.pending⟩, []) ∧
    (all_init ([] : List (Input α ε))).newp = FState.fulfilled [] ∧
    (any_init ([] : List (Input α ε))).newp = FState.rejected ⟨[]⟩ := by
  have hevs : evs = [] := by
    cases evs with
    | nil => rfl
    | cons ev rest =>
      obtain ⟨inp, h2, _⟩ := hv.2 ev (List.mem_cons_self ev rest)
      simp at h2
  subst hevs
  exact ⟨rfl, rfl, rfl, rfl⟩

/-- Witness for C10 at the empty schedule over Nat values. -/
theorem race_empty_never_settles_witness :
    ValidSchedule ([] : List (Input Nat Nat)) [] ∧
    race_run ([] : List (Input Nat Nat)) [] = (⟨false, FState.pending⟩, []) := by
  refine ⟨by decide, ?_⟩
  exact (race_empty_never_settles ([] : List (Event Nat Nat)) (by decide)).2.1

/-- Normalizing an input does not change the outcome Promise.resolve
assigns to it. -/
theorem resolve_normInput (i : Input α ε) :
    Promise.resolve (normInput i) = Promise.resolve i := rfl

/-- An event is valid for the normalized input list exactly when it is
valid for the original one. -/
theorem validEvent_map_norm (inputs : List (Input α ε)) (ev : Event α ε) :
    validEvent (inputs.map normInput) ev ↔ validEvent inputs ev := by
  constructor
  · rintro ⟨inp, h, he⟩
    rw [List.getElem?_map] at h
    cases hi : inputs[ev.1]? with
    | none => rw [hi] at h; exact Option.noConfusion h
    | some inp0 =>
      rw [hi] at h
      injection h with h3
      exact ⟨inp0, hi, by rw [he, ← h3, resolve_normInput]⟩
  · rintro ⟨inp, h, he⟩
    exact ⟨normInput inp, by rw [List.getElem?_map, h]; rfl,
      by rw [he, resolve_normInput]⟩

/-- C5 counterexample: all_settled does not accept a raw non-promise
value.  Its list comprehension invokes .then directly on the element, so
a raw value raises AttributeError and the call aborts instead of treating
the value as an already-fulfilled promise. -/
theorem all_settled_raw_input_errors :
    all_settled_elements ([Input.raw 0] : List (Input Nat Nat)) = Except.error () := rfl

/-- C5 amended: all, any and race normalize every element of their input
list through the static resolve operation, so a raw non-promise value at
any position is accepted and treated as an already-fulfilled promise of
that value (replacing every input by its normalized promise changes
neither schedule validity nor the run of any of the three combinators);
all_settled, however, invokes .then directly on each element, so it
accepts promises but fails with an AttributeError on a raw non-promise
value. -/
theorem combinator_normalization (v : α) (inputs : List (Input α ε))
    (evs : List (Event α ε)) (o : Outcome α ε) :
    Promise.resolve (Input.raw v : Input α ε) = Outcome.value v ∧
    (ValidSchedule (inputs.map normInput) evs ↔ ValidSchedule inputs evs) ∧
    all_run (inputs.map normInput) evs = all_run inputs evs ∧
    any_run (inputs.map normInput) evs = any_run inputs evs ∧
    race_run (inputs.map normInput) evs = race_run inputs evs ∧
    all_settled_element (Input.raw v : Input α ε) = Except.error () ∧
    all_settled_element (Input.prom o : Input α ε) =
      Except.ok (catchF (fun e => CbResult.ret (SRec.rejectedRec e))
        (thenF (fun w => CbResult.ret (SRec.fulfilledRec w)) o)) := by
  refine ⟨rfl, ?_, ?_, ?_, ?_, rfl, rfl⟩
  · constructor
    · rintro ⟨hn, hval⟩
      exact ⟨hn, fun ev hev => (validEvent_map_norm inputs ev).mp (hval ev hev)⟩
    · rintro ⟨hn, hval⟩
      exact ⟨hn, fun ev hev => (validEvent_map_norm inputs ev).mpr (hval ev hev)⟩
  · unfold all_run all_init
    rw [List.length_map]
  · unfold any_run any_init
    rw [List.length_map]
  · simp [race_run, race_init]

/-!
Claims C7 and C4: Promise.all.

The key data structure is the sparse results list the _resolve closure
grows.  `ResInv vals S res` says that after the inputs whose indices are
in S have fulfilled (input i with value vals[i]), the list res is exactly
long enough, holds some (vals[j]) at every recorded index j and the None
padding everywhere else.
-/

/-- Length of the sparse write: the list grows exactly to cover index
i. -/
theorem length_setIdx (l : List (Option α)) (i : Nat) (v : α) :
    (setIdx l i v).length = max l.length (i + 1) := by
  unfold setIdx padTo
  rw [List.length_set, List.length_append, List.length_replicate]
  omega

/-- Reading back the index just written. -/
theorem getElem?_setIdx_self (l : List (Option α)) (i : Nat) (v : α) :
    (setIdx l i v)[i]? = some (some v) := by
  have hlen : i < (padTo l (i + 1)).length := by
    unfold padTo
    rw [List.length_append, List.length_replicate]
    omega
  unfold setIdx
  rw [List.getElem?_set, if_pos rfl, if_pos hlen]

/-- Reading any other index after the sparse write: old entries survive,
fresh positions hold the None padding. -/
theorem getElem?_setIdx_ne (l : List (Option α)) {i j : Nat} (hne : j ≠ i) (v : α) :
    (setIdx l i v)[j]? =
      if j < l.length then l[j]?
      else if j < max l.length (i + 1) then some none else none := by
  unfold setIdx padTo
  rw [List.getElem?_set_ne (Ne.symm hne), List.getElem?_append]
  by_cases hjl : j < l.length
  · rw [if_pos hjl, if_pos hjl]
  · rw [if_neg hjl, if_neg hjl, List.getElem?_replicate]
    by_cases hj2 : j - l.length < i + 1 - l.length
    · rw [if_pos hj2, if_pos (by omega)]
    · rw [if_neg hj2, if_neg (by omega)]

/-- Invariant of the sparse results list of Promise.all: S is the list of
input indices fulfilled so far (input i delivered vals[i]); the list is
never longer than the input count, covers every recorded index, holds the
recorded value there and the None padding elsewhere. -/
def ResInv (vals : List α) (S : List Nat) (res : List (Option α)) : Prop :=
  res.length ≤ vals.length ∧
  (∀ i ∈ S, i < res.length) ∧
  (∀ j, j < res.length → res[j]? = some (if j ∈ S then vals[j]? else none))

/-- The invariant only depends on the membership of the recorded index
list. -/
theorem resInv_congr {S₁ S₂ : List Nat} (hS : ∀ j, j ∈ S₁ ↔ j ∈ S₂)
    {vals : List α} {res : List (Option α)} (h : ResInv vals S₁ res) :
    ResInv vals S₂ res := by
  obtain ⟨h1, h2, h3⟩ := h
  refine ⟨h1, fun i hi => h2 i ((hS i).mpr hi), fun j hj => ?_⟩
  rw [h3 j hj]
  congr 1
  by_cases hjs : j ∈ S₁
  · rw [if_pos hjs, if_pos ((hS j).mp hjs)]
  · rw [if_neg hjs, if_neg fun c => hjs ((hS j).mpr c)]

/-- The _resolve closure write preserves the invariant, recording index
i. -/
theorem resInv_setIdx {vals : List α} {S : List Nat} {res : List (Option α)}
    (h : ResInv vals S res) {i : Nat} {v : α} (hv : vals[i]? = some v) :
    ResInv vals (i :: S) (setIdx res i v) := by
  obtain ⟨h1, h2, h3⟩ := h
  have hi : i < vals.length := by
    by_contra hc
    rw [List.getElem?_len_le (Nat.le_of_not_lt hc)] at hv
    exact Option.noConfusion hv
  have hlen : (setIdx res i v).length = max res.length (i + 1) := length_setIdx res i v
  refine ⟨by omega, ?_, ?_⟩
  · intro j hj
    rcases List.mem_cons.mp hj with rfl | hj2
    · omega
    · have := h2 j hj2
      omega
  · intro j hj
    by_cases hji : j = i
    · subst hji
      rw [getElem?_setIdx_self, if_pos (List.mem_cons_self j S), hv]
    · rw [getElem?_setIdx_ne res hji v]
      by_cases hjr : j < res.length
      · rw [if_pos hjr, h3 j hjr]
        congr 1
        by_cases hjs : j ∈ S
        · rw [if_pos hjs, if_pos (List.mem_cons_of_mem i hjs)]
        · rw [if_neg hjs, if_neg ?_]
          intro hc
          rcases List.mem_cons.mp hc with hc1 | hc2
          · exact hji hc1
          · exact hjs hc2
      · rw [if_neg hjr, if_pos (by rw [hlen] at hj; exact hj)]
        have hjs : j ∉ S := fun hc => hjr (h2 j hc)
        rw [if_neg ?_]
        intro hc
        rcases List.mem_cons.mp hc with hc1 | hc2
        · exact hji hc1
        · exact hjs hc2

/-- A Nodup list of naturals all below n that records every index has
recorded the full results list: the sparse list collapses to the values
in index order. -/
theorem resInv_complete {vals : List α} {S : List Nat} {res : List (Option α)}
    (h : ResInv vals S res) (hall : ∀ j, j < vals.length → j ∈ S) :
    res = vals.map some := by
  obtain ⟨h1, h2, h3⟩ := h
  have hlen : res.length = vals.length := by
    rcases Nat.eq_zero_or_pos vals.length with h0 | hpos
    · omega
    · have hmem : vals.length - 1 ∈ S := hall _ (by omega)
      have := h2 _ hmem
      omega
  have hmaplen : (vals.map some).length = vals.length := List.length_map vals some
  apply List.ext_getElem?
  intro j
  by_cases hj : j < vals.length
  · rw [h3 j (by omega), if_pos (hall j hj), List.getElem?_map,
      List.getElem?_eq_getElem hj]
    rfl
  · rw [List.getElem?_len_le (by omega), List.getElem?_len_le (by omega)]

/-- Pigeonhole: a Nodup list of n naturals all below n contains every
index below n. -/
theorem nodup_full_range {n : Nat} {S : List Nat} (hn : S.Nodup)
    (hlt : ∀ i ∈ S, i < n) (hlen : n ≤ S.length) : ∀ j, j < n → j ∈ S := by
  have hsub : S.toFinset ⊆ Finset.range n := by
    intro x hx
    exact Finset.mem_range.mpr (hlt x (List.mem_toFinset.mp hx))
  have hcard : (Finset.range n).card ≤ S.toFinset.card := by
    rw [List.toFinset_card_of_nodup hn, Finset.card_range]
    exact hlen
  have heq := Finset.eq_of_subset_of_card_le hsub hcard
  intro j hj
  have : j ∈ S.toFinset := by
    rw [heq]
    exact Finset.mem_range.mpr hj
  exact List.mem_toFinset.mp this

/-- A Nodup list of naturals all below n has at most n elements. -/
theorem nodup_length_le {n : Nat} {S : List Nat} (hn : S.Nodup)
    (hlt : ∀ i ∈ S, i < n) : S.length ≤ n := by
  have hsub : S.toFinset ⊆ Finset.range n := by
    intro x hx
    exact Finset.mem_range.mpr (hlt x (List.mem_toFinset.mp hx))
  have := Finset.card_le_card hsub
  rw [List.toFinset_card_of_nodup hn, Finset.card_range] at this
  exact this

/-- Folding a run of fulfillment events through Promise.all: every event
records its value and bumps the counter; the combinator promise stays
pending until the counter reaches the input count, at which point the
_resolve closure fulfills it with the results list; every intermediate
then-promise resolves normally. -/
theorem all_values_phase (vals : List α) (evs : List (Event α ε)) (S : List Nat)
    (st : AllSt α ε)
    (hres : ResInv vals S st.results)
    (hcnt : st.resolved = S.length)
    (hnp : st.newp = FState.pending)
    (hSlt : S.length < vals.length)
    (hevs : ∀ ev ∈ evs, ev.1 ∉ S ∧ ∃ v, vals[ev.1]? = some v ∧ ev.2 = Outcome.value v)
    (hnodup : (evs.map Prod.fst).Nodup)
    (htot : S.length + evs.length ≤ vals.length) :
    ResInv vals (evs.map Prod.fst ++ S) (runEvents (all_step vals.length) st evs).1.results ∧
    (runEvents (all_step vals.length) st evs).1.resolved = S.length + evs.length ∧
    (runEvents (all_step vals.length) st evs).1.newp =
      (if S.length + evs.length = vals.length
        then FState.fulfilled (runEvents (all_step vals.length) st evs).1.results
        else FState.pending) ∧
    (runEvents (all_step vals.length) st evs).2 =
      List.replicate evs.length InnerOutcome.resolvedNone := by
  induction evs generalizing S st with
  | nil =>
    simp only [runEvents, List.map_nil, List.nil_append, List.length_nil, Nat.add_zero]
    exact ⟨hres, hcnt, by rw [if_neg (by omega)]; exact hnp, rfl⟩
  | cons ev rest ih =>
    obtain ⟨i, o⟩ := ev
    obtain ⟨hnotS, v, hvv, hov⟩ := hevs (i, o) (List.mem_cons_self _ _)
    have hov2 : o = Outcome.value v := hov
    subst hov2
    by_cases hfin : st.resolved + 1 = vals.length
    · -- the counter reaches the input count: this must be the last event
      have hrest : rest = [] := by
        have h2 : rest.length = 0 := by
          simp only [List.length_cons] at htot
          omega
        exact List.length_eq_zero.mp h2
      subst hrest
      have hstep : all_step vals.length st (i, Outcome.value v) =
          (⟨setIdx st.results i v, st.resolved + 1,
            FState.fulfilled (setIdx st.results i v)⟩, InnerOutcome.resolvedNone) := by
        simp [all_step, hfin, hnp, Promise._resolve, Future.set_result, innerOf]
      refine ⟨?_, ?_, ?_, ?_⟩
      · simpa [runEvents, hstep] using resInv_setIdx hres hvv
      · simp [runEvents, hstep, hcnt]
      · rw [if_pos (by simp only [List.length_cons, List.length_nil]; omega)]
        simp [runEvents, hstep]
      · simp [runEvents, hstep, List.replicate]
    · -- not the last event: the combinator promise stays pending
      have hstep : all_step vals.length st (i, Outcome.value v) =
          (⟨setIdx st.results i v, st.resolved + 1, st.newp⟩, InnerOutcome.resolvedNone) := by
        simp [all_step, hfin]
      have hevs2 : ∀ ev ∈ rest, ev.1 ∉ i :: S ∧
          ∃ w, vals[ev.1]? = some w ∧ ev.2 = Outcome.value w := by
        intro ev hev
        obtain ⟨h1, h2⟩ := hevs ev (List.mem_cons_of_mem _ hev)
        refine ⟨?_, h2⟩
        intro hc
        rcases List.mem_cons.mp hc with hji | hjs
        · have hnodup2 : (i :: rest.map Prod.fst).Nodup := by
            simpa only [List.map_cons] using hnodup
          exact (List.nodup_cons.mp hnodup2).1 (hji ▸ List.mem_map_of_mem Prod.fst hev)
        · exact h1 hjs
      have hmain := ih (i :: S) ⟨setIdx st.results i v, st.resolved + 1, st.newp⟩
        (resInv_setIdx hres hvv)
        (by simp [hcnt])
        hnp
        (by simp only [List.length_cons]; omega)
        hevs2
        ((List.nodup_cons.mp (by simpa only [List.map_cons] using hnodup)).2)
        (by simp only [List.length_cons] at htot ⊢; omega)
      obtain ⟨m1, m2, m3, m4⟩ := hmain
      refine ⟨?_, ?_, ?_, ?_⟩
      · simp only [runEvents, hstep, List.map_cons, List.cons_append]
        refine resInv_congr ?_ m1
        intro j
        simp only [List.mem_append, List.mem_cons]
        tauto
      · simp only [runEvents, hstep, List.length_cons]
        simp only [List.length_cons] at m2
        omega
      · simp only [runEvents, hstep, List.length_cons]
        rw [m3]
        by_cases hc : S.length + (rest.length + 1) = vals.length
        · rw [if_pos (by simp only [List.length_cons]; omega), if_pos hc]
        · rw [if_neg (by simp only [List.length_cons]; omega), if_neg hc]
      · simp only [runEvents, hstep, m4, List.length_cons, List.replicate]

/-- C7: when every input of Promise.all fulfills, the combinator promise
fulfills with the list of fulfillment values aligned by input index
(each wrapped in some, the sparse-write representation of the results
list), whatever the real-time completion order; in particular all on the
empty input list fulfills with the empty list. -/
theorem all_fulfills_in_index_order (inputs : List (Input α ε)) (vals : List α)
    (evs : List (Event α ε))
    (hmap : inputs.map Promise.resolve = vals.map Outcome.value)
    (hv : ValidSchedule inputs evs)
    (hcomplete : evs.length = inputs.length) :
    (all_run inputs evs).1.newp = FState.fulfilled (vals.map some) := by
  have hlen : vals.length = inputs.length := by
    have h1 := congrArg List.length hmap
    rw [List.length_map, List.length_map] at h1
    exact h1.symm
  rcases Nat.eq_zero_or_pos inputs.length with h0 | hpos
  · have hinputs : inputs = [] := List.length_eq_zero.mp h0
    have hevs : evs = [] := List.length_eq_zero.mp (by omega)
    have hvals : vals = [] := List.length_eq_zero.mp (by omega)
    subst hinputs hevs hvals
    rfl
  · have hinit : all_init inputs = ⟨[], 0, FState.pending⟩ := by
      unfold all_init
      rw [if_neg (by omega)]
    have hval : ∀ ev ∈ evs, ev.1 ∉ ([] : List Nat) ∧
        ∃ v, vals[ev.1]? = some v ∧ ev.2 = Outcome.value v := by
      intro ev hev
      obtain ⟨inp, hinp, hout⟩ := hv.2 ev hev
      refine ⟨List.not_mem_nil _, ?_⟩
      have hpoint := congrArg (fun l => l[ev.1]?) hmap
      simp only [List.getElem?_map] at hpoint
      rw [hinp] at hpoint
      cases hvv : vals[ev.1]? with
      | none =>
        rw [hvv] at hpoint
        simp at hpoint
      | some w =>
        rw [hvv] at hpoint
        rw [Option.map_some', Option.map_some'] at hpoint
        injection hpoint with hp
        exact ⟨w, rfl, by rw [hout, hp]⟩
    have hphase := all_values_phase vals evs [] ⟨[], 0, FState.pending⟩
      ⟨Nat.zero_le _, fun i hi => absurd hi (List.not_mem_nil i),
        fun j hj => absurd hj (by simp)⟩
      rfl rfl (by simp only [List.length_nil]; omega) hval hv.1
      (by simp only [List.length_nil]; omega)
    obtain ⟨p1, p2, p3, p4⟩ := hphase
    have hidx : ∀ x ∈ evs.map Prod.fst, x < inputs.length := by
      intro x hx
      obtain ⟨ev, hev, rfl⟩ := List.mem_map.mp hx
      obtain ⟨inp, hinp, _⟩ := hv.2 ev hev
      by_contra hc
      rw [List.getElem?_len_le (Nat.le_of_not_lt hc)] at hinp
      exact Option.noConfusion hinp
    have hfull : ∀ j, j < vals.length → j ∈ evs.map Prod.fst ++ ([] : List Nat) := by
      intro j hj
      rw [List.append_nil]
      refine nodup_full_range (n := vals.length) hv.1 ?_ ?_ j hj
      · intro i hi
        have := hidx i hi
        omega
      · rw [List.length_map]
        omega
    have hres := resInv_complete p1 hfull
    have hstep_eq : all_step (α := α) (ε := ε) inputs.length = all_step vals.length := by
      rw [hlen]
    show (runEvents (all_step inputs.length) (all_init inputs) evs).1.newp = _
    rw [hinit, hstep_eq]
    simp only [List.length_nil, Nat.zero_add] at p3
    rw [if_pos (by omega)] at p3
    rw [p3, hres]

/-- Witness for C7: three inputs (two raw values, one promise) whose
completion events arrive out of index order; the combinator promise
fulfills with the values in index order. -/
theorem all_fulfills_in_index_order_witness :
    ([Input.raw 10, Input.prom (Outcome.value 20), Input.raw 30] :
        List (Input Nat Nat)).map Promise.resolve =
      ([10, 20, 30] : List Nat).map Outcome.value ∧
    ValidSchedule ([Input.raw 10, Input.prom (Outcome.value 20), Input.raw 30] :
        List (Input Nat Nat))
      [(2, Outcome.value 30), (0, Outcome.value 10), (1, Outcome.value 20)] ∧
    (all_run ([Input.raw 10, Input.prom (Outcome.value 20), Input.raw 30] :
        List (Input Nat Nat))
      [(2, Outcome.value 30), (0, Outcome.value 10), (1, Outcome.value 20)]).1.newp =
      FState.fulfilled [some 10, some 20, some 30] := by
  refine ⟨by decide, by decide, ?_⟩
  exact all_fulfills_in_index_order
    [Input.raw 10, Input.prom (Outcome.value 20), Input.raw 30] [10, 20, 30]
    [(2, Outcome.value 30), (0, Outcome.value 10), (1, Outcome.value 20)]
    (by decide) (by decide) (by decide)

/-- Running an appended schedule: run the first part, then the second
from the reached state, concatenating the inner outcomes. -/
theorem runEvents_append (step : σ → Event α ε → σ × InnerOutcome) (s : σ)
    (l₁ l₂ : List (Event α ε)) :
    runEvents step s (l₁ ++ l₂) =
      ((runEvents step (runEvents step s l₁).1 l₂).1,
        (runEvents step s l₁).2 ++ (runEvents step (runEvents step s l₁).1 l₂).2) := by
  induction l₁ generalizing s with
  | nil => simp [runEvents]
  | cons ev rest ih =>
    simp only [List.cons_append, runEvents, List.append_eq, ih, List.cons_append]

/-- Kind test of an event: true on fulfillments. -/
def isValueEv : Event α ε → Bool := fun ev =>
  match ev.2 with
  | .value _ => true
  | .error _ => false

/-- What the intermediate then-promise of a late event observes once the
combinator promise of Promise.all is settled: a late fulfillment runs the
_resolve closure, which returns normally (the counter can no longer reach
the input count), so the then-promise resolves with None; a late
rejection calls new_promise._reject, which raises InvalidStateError, and
_handle_callback catches it and rejects the then-promise with it. -/
def lateInner : Event α ε → InnerOutcome := fun ev =>
  match ev.2 with
  | .value _ => .resolvedNone
  | .error _ => .rejectedInvalidState

/-- A run of fulfillment events that cannot reach the input count leaves
the combinator promise of Promise.all pending and only records values and
bumps the counter. -/
theorem all_values_pending (total : Nat) (evs : List (Event α ε)) (st : AllSt α ε)
    (hnp : st.newp = FState.pending)
    (hvals : ∀ ev ∈ evs, ∃ v, ev.2 = Outcome.value v)
    (hcnt : st.resolved + evs.length < total) :
    (runEvents (all_step total) st evs).1.newp = FState.pending ∧
    (runEvents (all_step total) st evs).1.resolved = st.resolved + evs.length ∧
    (runEvents (all_step total) st evs).2 =
      List.replicate evs.length InnerOutcome.resolvedNone := by
  induction evs generalizing st with
  | nil => exact ⟨hnp, rfl, rfl⟩
  | cons ev rest ih =>
    obtain ⟨i, o⟩ := ev
    obtain ⟨v, hov⟩ := hvals (i, o) (List.mem_cons_self _ _)
    have hov2 : o = Outcome.value v := hov
    subst hov2
    have hfin : ¬(st.resolved + 1 = total) := by
      simp only [List.length_cons] at hcnt
      omega
    have hstep : all_step total st (i, Outcome.value v) =
        (⟨setIdx st.results i v, st.resolved + 1, st.newp⟩, InnerOutcome.resolvedNone) := by
      simp [all_step, hfin]
    have hmain := ih ⟨setIdx st.results i v, st.resolved + 1, st.newp⟩ hnp
      (fun ev hev => hvals ev (List.mem_cons_of_mem _ hev))
      (by simp only [List.length_cons] at hcnt ⊢; omega)
    obtain ⟨m1, m2, m3⟩ := hmain
    refine ⟨?_, ?_, ?_⟩
    · simp only [runEvents, hstep]
      exact m1
    · simp only [runEvents, hstep, List.length_cons]
      simp only at m2
      omega
    · simp only [runEvents, hstep, m3, List.length_cons, List.replicate]

/-- Once the combinator promise of Promise.all is settled, later events
are observed but discarded: the promise never changes again and each late
event settles only its own intermediate then-promise, fulfillments
normally and rejections with the caught InvalidStateError. -/
theorem all_run_after_reject (total : Nat) (s : FState (List (Option α)) ε)
    (hs : s ≠ FState.pending) (evs : List (Event α ε)) (st : AllSt α ε)
    (hnp : st.newp = s)
    (hcnt : st.resolved + evs.countP isValueEv < total) :
    (runEvents (all_step total) st evs).1.newp = s ∧
    (runEvents (all_step total) st evs).2 = evs.map lateInner := by
  induction evs generalizing st with
  | nil => exact ⟨hnp, rfl⟩
  | cons ev rest ih =>
    obtain ⟨i, o⟩ := ev
    cases o with
    | value v =>
      have hkind : isValueEv ((i : Nat), (Outcome.value v : Outcome α ε)) = true := rfl
      rw [List.countP_cons, hkind, if_pos rfl] at hcnt
      have hfin : ¬(st.resolved + 1 = total) := by omega
      have hstep : all_step total st (i, Outcome.value v) =
          (⟨setIdx st.results i v, st.resolved + 1, st.newp⟩, InnerOutcome.resolvedNone) := by
        simp [all_step, hfin]
      have hmain := ih ⟨setIdx st.results i v, st.resolved + 1, st.newp⟩ hnp
        (by show st.resolved + 1 + List.countP isValueEv rest < total; omega)
      refine ⟨?_, ?_⟩
      · simp only [runEvents, hstep]
        exact hmain.1
      · simp only [runEvents, hstep, hmain.2, List.map_cons]
        rfl
    | error e =>
      have hkind : isValueEv ((i : Nat), (Outcome.error e : Outcome α ε)) = false := rfl
      rw [List.countP_cons, hkind] at hcnt
      simp only [Bool.false_eq_true, if_false, Nat.add_zero] at hcnt
      have hrej : Promise._reject st.newp e = (s, Except.error ()) := by
        rw [hnp]
        cases s with
        | pending => exact absurd rfl hs
        | fulfilled w => rfl
        | rejected w => rfl
        | cancelled => rfl
      have hstep : all_step total st (i, Outcome.error e) =
          (⟨st.results, st.resolved, s⟩, InnerOutcome.rejectedInvalidState) := by
        simp [all_step, hrej, innerOf]
      have hmain := ih ⟨st.results, st.resolved, s⟩ rfl hcnt
      refine ⟨?_, ?_⟩
      · simp only [runEvents, hstep]
        exact hmain.1
      · simp only [runEvents, hstep, hmain.2, List.map_cons]
        rfl

/-- C4: when the first rejection among the inputs of Promise.all occurs
(every earlier completion event being a fulfillment), the combinator
promise rejects with that reason, and every later settlement of another
input is observed but discarded: the combinator promise never settles a
second time (its state never changes again), late fulfillments return
normally, and a late rejection raises InvalidStateError inside
new_promise._reject, which _handle_callback catches and delivers to that
event's own intermediate then-promise — no error ever escapes to the
scheduler. -/
theorem all_first_rejection_wins (inputs : List (Input α ε))
    (pre post : List (Event α ε)) (j : Nat) (e : ε)
    (hv : ValidSchedule inputs (pre ++ (j, Outcome.error e) :: post))
    (hpre : ∀ ev ∈ pre, ∃ v, ev.2 = Outcome.value v) :
    (all_run inputs (pre ++ (j, Outcome.error e) :: post)).1.newp = FState.rejected e ∧
    (all_run inputs (pre ++ (j, Outcome.error e) :: post)).2 =
      List.replicate (pre.length + 1) InnerOutcome.resolvedNone ++ post.map lateInner := by
  have hidx : ∀ x ∈ (pre ++ (j, Outcome.error e) :: post).map Prod.fst,
      x < inputs.length := by
    intro x hx
    obtain ⟨ev, hev, rfl⟩ := List.mem_map.mp hx
    obtain ⟨inp, hinp, _⟩ := hv.2 ev hev
    by_contra hc
    rw [List.getElem?_len_le (Nat.le_of_not_lt hc)] at hinp
    exact Option.noConfusion hinp
  have hjn : j < inputs.length := by
    have hmem : ((j, Outcome.error e) : Event α ε) ∈ pre ++ (j, Outcome.error e) :: post :=
      List.mem_append.mpr (Or.inr (List.mem_cons_self _ _))
    exact hidx _ (List.mem_map_of_mem Prod.fst hmem)
  have hcount : (pre ++ (j, Outcome.error e) :: post).length ≤ inputs.length := by
    have := nodup_length_le (n := inputs.length) hv.1 hidx
    rw [List.length_map] at this
    exact this
  rw [List.length_append, List.length_cons] at hcount
  have hinit : all_init inputs = ⟨[], 0, FState.pending⟩ := by
    unfold all_init
    rw [if_neg (by omega)]
  -- phase 1: the fulfillment events before the first rejection
  have hphase1 := all_values_pending inputs.length pre
    ⟨[], 0, FState.pending⟩ rfl hpre (by show 0 + pre.length < inputs.length; omega)
  obtain ⟨q1, q2, q3⟩ := hphase1
  -- the rejection event settles the pending combinator promise
  have hstep : all_step inputs.length
      (runEvents (all_step inputs.length) ⟨[], 0, FState.pending⟩ pre).1
      (j, Outcome.error e) =
      (⟨(runEvents (all_step inputs.length) ⟨[], 0, FState.pending⟩ pre).1.results,
        (runEvents (all_step inputs.length) ⟨[], 0, FState.pending⟩ pre).1.resolved,
        FState.rejected e⟩, InnerOutcome.resolvedNone) := by
    simp [all_step, Promise._reject, q1, Future.set_exception, innerOf]
  -- phase 2: the late events after the rejection
  have hphase2 := all_run_after_reject inputs.length (FState.rejected e)
    (by intro hc; exact FState.noConfusion hc) post
    ⟨(runEvents (all_step inputs.length) ⟨[], 0, FState.pending⟩ pre).1.results,
      (runEvents (all_step inputs.length) ⟨[], 0, FState.pending⟩ pre).1.resolved,
      FState.rejected e⟩ rfl
    (by
      show (runEvents (all_step inputs.length) ⟨[], 0, FState.pending⟩ pre).1.resolved +
        List.countP isValueEv post < inputs.length
      rw [q2]
      have hle := List.countP_le_length (l := post) isValueEv
      show 0 + pre.length + List.countP isValueEv post < inputs.length
      omega)
  obtain ⟨r1, r2⟩ := hphase2
  have hsplit := runEvents_append (all_step inputs.length) (⟨[], 0, FState.pending⟩ : AllSt α ε)
    pre ((j, Outcome.error e) :: post)
  constructor
  · show (runEvents (all_step inputs.length) (all_init inputs)
      (pre ++ (j, Outcome.error e) :: post)).1.newp = _
    rw [hinit, hsplit]
    simp only [runEvents, hstep]
    exact r1
  · show (runEvents (all_step inputs.length) (all_init inputs)
      (pre ++ (j, Outcome.error e) :: post)).2 = _
    rw [hinit, hsplit]
    simp only [runEvents, hstep, q3, r2]
    rw [List.replicate_succ', List.append_assoc, List.singleton_append]

/-- Witness for C4: three inputs; the first fulfills, the second rejects
(settling the combinator promise with its reason), the third rejects
later and its InvalidStateError is caught and delivered to its own
then-promise. -/
theorem all_first_rejection_wins_witness :
    ValidSchedule
      ([Input.raw 1, Input.prom (Outcome.error 5), Input.prom (Outcome.error 6)] :
        List (Input Nat Nat))
      ([(0, Outcome.value 1)] ++ (1, Outcome.error 5) :: [(2, Outcome.error 6)]) ∧
    (all_run ([Input.raw 1, Input.prom (Outcome.error 5), Input.prom (Outcome.error 6)] :
        List (Input Nat Nat))
      ([(0, Outcome.value 1)] ++ (1, Outcome.error 5) :: [(2, Outcome.error 6)])).1.newp =
      FState.rejected 5 ∧
    (all_run ([Input.raw 1, Input.prom (Outcome.error 5), Input.prom (Outcome.error 6)] :
        List (Input Nat Nat))
      ([(0, Outcome.value 1)] ++ (1, Outcome.error 5) :: [(2, Outcome.error 6)])).2 =
      List.replicate 2 InnerOutcome.resolvedNone ++
        [InnerOutcome.rejectedInvalidState] := by
  refine ⟨by decide, ?_⟩
  have h := all_first_rejection_wins
    ([Input.raw 1, Input.prom (Outcome.error 5), Input.prom (Outcome.error 6)] :
      List (Input Nat Nat))
    [(0, Outcome.value 1)] [(2, Outcome.error 6)] 1 5
    (by decide) (by intro ev hev; fin_cases hev; exact ⟨1, rfl⟩)
  exact h
